import Mathlib

/-!
Verification development for the REDCap deployment fabfile
(`fabfile.py`).  The Python source is shallowly embedded: each pure
computation becomes a Lean function, each remote-side effect becomes an
explicit action in a trace, and the module-level mutable state
(`w_counter`, the remote `.my.cnf` file) becomes an explicit state
record threaded through the operations.  Python `int` is modelled by
`Nat`/`Int` (no overflow is possible in Python), strings by `String` /
`List Char`.
-/

/-- A dotted version number `major.minor.patch`, the result of
`version.split('.')` + `map(int, ...)` on a well-formed three-component
version string such as `"6.11.5"` (`fabfile.py` always produces these
via the regex `(\d+\.\d+\.\d+)` in `extract_version_from_string` /
`apply_incremental_db_changes`). -/
structure Version where
  major : Nat
  minor : Nat
  patch : Nat
deriving DecidableEq, Repr

/-- Little-endian decimal digits of `n`, computed with explicit fuel so
that the definition is structural (kernel-reducible).  `natDigits` below
always supplies enough fuel. -/
def toDigitsFuel : Nat → Nat → List Nat
  | 0, _ => []
  | fuel + 1, n => if n < 10 then [n] else n % 10 :: toDigitsFuel fuel (n / 10)

/-- Little-endian decimal digits of `n` (e.g. `natDigits 123 = [3,2,1]`,
`natDigits 0 = [0]`). -/
def natDigits (n : Nat) : List Nat := toDigitsFuel (n + 1) n

/-- Decimal character rendering of `n`, most significant digit first,
without leading zeros; models Python `"%d" % n` (and the digit portion
of on-disk migration file names). -/
def natChars (n : Nat) : List Char := (natDigits n).reverse.map Nat.digitChar

/-- Decimal value of a most-significant-first list of ASCII digit
characters; models Python `int(...)` applied to a digit string. -/
def digitsToNat (cs : List Char) : Nat :=
  cs.foldl (fun a c => 10 * a + (c.toNat - 48)) 0

/-- Python `"%02d" % n`: decimal rendering padded on the left with a
single `'0'` when `n` has only one digit.  NOTE: `%02d` pads but never
truncates, so for `n ≥ 100` the full digit string is produced. -/
def format2 (n : Nat) : List Char :=
  if n < 10 then '0' :: natChars n else natChars n

/-- Embedding of `fabfile.py::convert_version_to_int` (lines 387-392):

    version = int("%d%02d%02d" % tuple(map(int, version.split('.'))))

The dotted string has already been split into the `Version` triple; the
function formats `major` with `%d`, `minor` and `patch` with `%02d`,
concatenates the digit strings and reads the result back as an integer. -/
def convert_version_to_int (v : Version) : Nat :=
  digitsToNat (natChars v.major ++ format2 v.minor ++ format2 v.patch)

/-- Modelled from the spec: `VersionCodec.Compare` as the specification
words it — "compares major, then minor, then patch", numerically per
component.  This is the spec-side definition used to compare the behaviour of the code
against; the code itself compares `convert_version_to_int`
keys. -/
def specCompare (a b : Version) : Ordering :=
  if a.major < b.major then .lt
  else if b.major < a.major then .gt
  else if a.minor < b.minor then .lt
  else if b.minor < a.minor then .gt
  else if a.patch < b.patch then .lt
  else if b.patch < a.patch then .gt
  else .eq

/-- The comparison the code actually performs on versions wherever it
compares them (`apply_incremental_db_changes`, line 422: the Python
`>` on the results of `convert_version_to_int`). -/
def codeCompare (a b : Version) : Ordering :=
  compare (convert_version_to_int a) (convert_version_to_int b)

/-- Versions whose minor and patch components fit in the two decimal
digits that the `"%d%02d%02d"` encoding reserves for them. -/
def Bounded (v : Version) : Prop := v.minor < 100 ∧ v.patch < 100

instance (v : Version) : Decidable (Bounded v) := by
  unfold Bounded; infer_instance

/-- Little-endian decimal value of a digit list, the inverse reading of
`natDigits`. -/
def valRev : List Nat → Nat
  | [] => 0
  | d :: l => d + 10 * valRev l

theorem valRev_toDigitsFuel :
    ∀ fuel n, n < 10 ^ fuel → valRev (toDigitsFuel fuel n) = n := by
  intro fuel
  induction fuel with
  | zero => intro n h; interval_cases n; rfl
  | succ f ih =>
    intro n h
    by_cases h10 : n < 10
    · simp [toDigitsFuel, h10, valRev]
    · have hdiv : n / 10 < 10 ^ f := by
        rw [Nat.div_lt_iff_lt_mul (by norm_num)]
        calc n < 10 ^ (f + 1) := h
        _ = 10 ^ f * 10 := by ring
      simp only [toDigitsFuel, h10, if_false, valRev]
      rw [ih (n / 10) hdiv]
      omega

theorem valRev_natDigits (n : Nat) : valRev (natDigits n) = n :=
  valRev_toDigitsFuel (n + 1) n (Nat.lt_trans (Nat.lt_pow_self (by norm_num) n)
    (Nat.pow_lt_pow_right (by norm_num) (Nat.lt_succ_self n)))

theorem toDigitsFuel_lt_ten :
    ∀ fuel n d, d ∈ toDigitsFuel fuel n → n < 10 ^ fuel → d < 10 := by
  intro fuel
  induction fuel with
  | zero => intro n d hd _; simp [toDigitsFuel] at hd
  | succ f ih =>
    intro n d hd h
    by_cases h10 : n < 10
    · simp [toDigitsFuel, h10] at hd; omega
    · simp only [toDigitsFuel, h10, if_false, List.mem_cons] at hd
      rcases hd with h1 | h2
      · omega
      · exact ih (n / 10) d h2 (by
          rw [Nat.div_lt_iff_lt_mul (by norm_num)]
          calc n < 10 ^ (f + 1) := h
          _ = 10 ^ f * 10 := by ring)

theorem natDigits_lt_ten {n d : Nat} (hd : d ∈ natDigits n) : d < 10 :=
  toDigitsFuel_lt_ten (n + 1) n d hd
    (Nat.lt_trans (Nat.lt_pow_self (by norm_num) n)
      (Nat.pow_lt_pow_right (by norm_num) (Nat.lt_succ_self n)))

theorem natDigits_ne_nil (n : Nat) : natDigits n ≠ [] := by
  unfold natDigits toDigitsFuel
  by_cases h : n < 10 <;> simp [h]

theorem toNat_digitChar {d : Nat} (h : d < 10) : (Nat.digitChar d).toNat - 48 = d := by
  interval_cases d <;> rfl

theorem isDigit_digitChar {d : Nat} (h : d < 10) : (Nat.digitChar d).isDigit = true := by
  interval_cases d <;> rfl

theorem natChars_all_digit {n : Nat} {c : Char} (hc : c ∈ natChars n) :
    c.isDigit = true := by
  unfold natChars at hc
  rw [List.mem_map] at hc
  obtain ⟨d, hd, rfl⟩ := hc
  rw [List.mem_reverse] at hd
  exact isDigit_digitChar (natDigits_lt_ten hd)

theorem natChars_ne_nil (n : Nat) : natChars n ≠ [] := by
  unfold natChars
  simp [natDigits_ne_nil n]

theorem digitsToNat_acc (cs : List Char) :
    ∀ a, List.foldl (fun a c => 10 * a + (c.toNat - 48)) a cs
      = a * 10 ^ cs.length + digitsToNat cs := by
  unfold digitsToNat
  induction cs with
  | nil => intro a; simp
  | cons c t ih =>
    intro a
    simp only [List.foldl_cons, List.length_cons]
    rw [ih (10 * a + (c.toNat - 48)), ih (10 * 0 + (c.toNat - 48))]
    ring

theorem digitsToNat_append (xs ys : List Char) :
    digitsToNat (xs ++ ys) = digitsToNat xs * 10 ^ ys.length + digitsToNat ys := by
  unfold digitsToNat
  rw [List.foldl_append]
  rw [digitsToNat_acc ys]
  rfl

theorem digitsToNat_natChars (n : Nat) : digitsToNat (natChars n) = n := by
  have key : ∀ (l : List Nat), (∀ d ∈ l, d < 10) →
      digitsToNat (l.reverse.map Nat.digitChar) = valRev l := by
    intro l
    induction l with
    | nil => intro _; rfl
    | cons d t ih =>
      intro hall
      simp only [List.reverse_cons, List.map_append, List.map_cons, List.map_nil]
      rw [digitsToNat_append]
      simp only [List.length_cons, List.length_nil, pow_one, valRev]
      rw [ih (fun x hx => hall x (List.mem_cons_of_mem d hx))]
      have hd : d < 10 := hall d (List.mem_cons_self d t)
      show valRev t * 10 ^ 1 + digitsToNat [Nat.digitChar d] = d + 10 * valRev t
      have : digitsToNat [Nat.digitChar d] = d := by
        unfold digitsToNat
        simp [toNat_digitChar hd]
      rw [this]
      ring
  unfold natChars
  rw [key (natDigits n) (fun d hd => natDigits_lt_ten hd), valRev_natDigits]

theorem toDigitsFuel_small {fuel n : Nat} (h : n < 10) (hf : 0 < fuel) :
    toDigitsFuel fuel n = [n] := by
  cases fuel with
  | zero => omega
  | succ f => simp [toDigitsFuel, h]

theorem natDigits_one {n : Nat} (h : n < 10) : natDigits n = [n] := by
  unfold natDigits
  exact toDigitsFuel_small h (by omega)

theorem natDigits_two {n : Nat} (h1 : 10 ≤ n) (h2 : n < 100) :
    natDigits n = [n % 10, n / 10] := by
  unfold natDigits
  have hn : ¬ n < 10 := by omega
  rw [show toDigitsFuel (n + 1) n = n % 10 :: toDigitsFuel n (n / 10) by
    simp [toDigitsFuel, hn]]
  rw [toDigitsFuel_small (by omega) (by omega)]

theorem format2_length {n : Nat} (h : n < 100) : (format2 n).length = 2 := by
  unfold format2
  by_cases h10 : n < 10
  · simp [h10, natChars, natDigits_one h10]
  · simp [h10, natChars, natDigits_two (by omega) h]

theorem digitsToNat_format2 (n : Nat) : digitsToNat (format2 n) = n := by
  unfold format2
  by_cases h10 : n < 10
  · simp only [h10, if_true]
    rw [show ('0' :: natChars n) = ['0'] ++ natChars n from rfl, digitsToNat_append]
    rw [digitsToNat_natChars, show digitsToNat ['0'] = 0 from by decide]
    simp
  · simp only [h10, if_false]
    exact digitsToNat_natChars n

theorem convert_eq_of_bounded {v : Version} (h : Bounded v) :
    convert_version_to_int v = v.major * 10000 + v.minor * 100 + v.patch := by
  obtain ⟨h1, h2⟩ := h
  unfold convert_version_to_int
  rw [List.append_assoc, digitsToNat_append, digitsToNat_append]
  rw [digitsToNat_natChars, digitsToNat_format2, digitsToNat_format2]
  rw [List.length_append, format2_length h1, format2_length h2]
  ring

theorem specCompare_eq_iff (a b : Version) : specCompare a b = .eq ↔ a = b := by
  cases a with
  | mk am an ap =>
    cases b with
    | mk bm bn bp =>
      unfold specCompare
      simp only [Version.mk.injEq]
      split_ifs <;> simp_all <;> omega

theorem codeCompare_eq_specCompare {a b : Version} (ha : Bounded a) (hb : Bounded b) :
    codeCompare a b = specCompare a b := by
  unfold codeCompare
  rw [convert_eq_of_bounded ha, convert_eq_of_bounded hb]
  obtain ⟨ha1, ha2⟩ := ha
  obtain ⟨hb1, hb2⟩ := hb
  unfold specCompare
  split_ifs <;> first
    | (rw [Nat.compare_eq_lt]; omega)
    | (rw [Nat.compare_eq_gt]; omega)
    | (rw [Nat.compare_eq_eq]; omega)

/-- Model of the comparison performed by GNU coreutils
`sort --version-sort`, which `apply_incremental_db_changes` (line 416)
invokes on the remote host to order the `upgrade_*.sql` / `upgrade_*.php`
file names: maximal runs of ASCII digits are compared by their numeric
value, all other characters bytewise.  (The leading-zero special cases
of coreutils filevercmp cannot arise here: version components in
migration file names carry no leading zeros.)  The first argument is
structural-recursion fuel; `versCmp` supplies enough. -/
def versCmpFuel : Nat → List Char → List Char → Ordering
  | _, [], [] => .eq
  | _, [], _ :: _ => .lt
  | _, _ :: _, [] => .gt
  | 0, _ :: _, _ :: _ => .eq
  | fuel + 1, a :: as, b :: bs =>
    if a.isDigit && b.isDigit then
      if digitsToNat ((a :: as).takeWhile Char.isDigit)
          < digitsToNat ((b :: bs).takeWhile Char.isDigit) then .lt
      else if digitsToNat ((b :: bs).takeWhile Char.isDigit)
          < digitsToNat ((a :: as).takeWhile Char.isDigit) then .gt
      else versCmpFuel fuel ((a :: as).dropWhile Char.isDigit)
        ((b :: bs).dropWhile Char.isDigit)
    else if a < b then .lt
    else if b < a then .gt
    else versCmpFuel fuel as bs

/-- Version-sort comparison of two character strings (see
`versCmpFuel`). -/
def versCmp (x y : List Char) : Ordering :=
  versCmpFuel (x.length + y.length) x y

theorem versCmpFuel_congr :
    ∀ f g (x y : List Char), x.length + y.length ≤ f → x.length + y.length ≤ g →
      versCmpFuel f x y = versCmpFuel g x y := by
  intro f
  induction f with
  | zero =>
    intro g x y hf _
    have hx : x = [] := by
      cases x with
      | nil => rfl
      | cons c cs => simp at hf
    have hy : y = [] := by
      cases y with
      | nil => rfl
      | cons c cs => subst hx; simp at hf
    subst hx; subst hy
    cases g <;> rfl
  | succ f ih =>
    intro g x y hf hg
    cases x with
    | nil =>
      cases y with
      | nil => cases g <;> rfl
      | cons b bs => cases g <;> rfl
    | cons a as =>
      cases y with
      | nil => cases g <;> rfl
      | cons b bs =>
        obtain ⟨g', rfl⟩ : ∃ g', g = g' + 1 := ⟨g - 1, by simp at hg; omega⟩
        have hf2 : as.length + bs.length + 2 ≤ f + 1 := by simp at hf; omega
        have hg2 : as.length + bs.length + 2 ≤ g' + 1 := by simp at hg; omega
        simp only [versCmpFuel]
        split_ifs with hd h1 h2 h3 h4 <;> try rfl
        · have ha : a.isDigit = true := (Bool.and_eq_true_iff.mp hd).1
          have hb : b.isDigit = true := (Bool.and_eq_true_iff.mp hd).2
          have e1 : (a :: as).dropWhile Char.isDigit = as.dropWhile Char.isDigit := by
            simp [List.dropWhile_cons, ha]
          have e2 : (b :: bs).dropWhile Char.isDigit = bs.dropWhile Char.isDigit := by
            simp [List.dropWhile_cons, hb]
          have l1 : (as.dropWhile Char.isDigit).length ≤ as.length :=
            (List.dropWhile_sublist Char.isDigit).length_le
          have l2 : (bs.dropWhile Char.isDigit).length ≤ bs.length :=
            (List.dropWhile_sublist Char.isDigit).length_le
          rw [e1, e2]
          exact ih g' _ _ (by omega) (by omega)
        · exact ih g' as bs (by omega) (by omega)

theorem versCmpFuel_eq_versCmp {f : Nat} {x y : List Char}
    (h : x.length + y.length ≤ f) : versCmpFuel f x y = versCmp x y :=
  versCmpFuel_congr f (x.length + y.length) x y h le_rfl

theorem versCmp_cons_cons (a b : Char) (as bs : List Char) :
    versCmp (a :: as) (b :: bs) =
      if a.isDigit && b.isDigit then
        if digitsToNat ((a :: as).takeWhile Char.isDigit)
            < digitsToNat ((b :: bs).takeWhile Char.isDigit) then .lt
        else if digitsToNat ((b :: bs).takeWhile Char.isDigit)
            < digitsToNat ((a :: as).takeWhile Char.isDigit) then .gt
        else versCmp ((a :: as).dropWhile Char.isDigit)
          ((b :: bs).dropWhile Char.isDigit)
      else if a < b then .lt
      else if b < a then .gt
      else versCmp as bs := by
  have hlen : (a :: as).length + (b :: bs).length = (as.length + bs.length + 1) + 1 := by
    simp; omega
  unfold versCmp
  rw [hlen]
  simp only [versCmpFuel]
  split_ifs with hd h1 h2 h3 h4 <;> try rfl
  · have ha : a.isDigit = true := (Bool.and_eq_true_iff.mp hd).1
    have hb : b.isDigit = true := (Bool.and_eq_true_iff.mp hd).2
    have e1 : (a :: as).dropWhile Char.isDigit = as.dropWhile Char.isDigit := by
      simp [List.dropWhile_cons, ha]
    have e2 : (b :: bs).dropWhile Char.isDigit = bs.dropWhile Char.isDigit := by
      simp [List.dropWhile_cons, hb]
    have l1 : (as.dropWhile Char.isDigit).length ≤ as.length :=
      (List.dropWhile_sublist Char.isDigit).length_le
    have l2 : (bs.dropWhile Char.isDigit).length ≤ bs.length :=
      (List.dropWhile_sublist Char.isDigit).length_le
    rw [e1, e2]
    exact versCmpFuel_eq_versCmp (by omega)
  · exact versCmpFuel_eq_versCmp (by omega)

theorem versCmp_cons_same {c : Char} (hc : c.isDigit = false) (x y : List Char) :
    versCmp (c :: x) (c :: y) = versCmp x y := by
  rw [versCmp_cons_cons]
  simp [hc]

theorem versCmp_strip {s : List Char} (hs : ∀ c ∈ s, c.isDigit = false)
    (x y : List Char) : versCmp (s ++ x) (s ++ y) = versCmp x y := by
  induction s with
  | nil => rfl
  | cons c t ih =>
    simp only [List.cons_append]
    rw [versCmp_cons_same (hs c (List.mem_cons_self c t))]
    exact ih (fun d hd => hs d (List.mem_cons_of_mem c hd))

/-- The first character of the list (if any) is not a digit; used to
delimit the maximal digit runs that version sort compares numerically.
(The default head `'.'` used for the empty list is itself not a digit.) -/
def headNotDigit (l : List Char) : Prop := (l.headD '.').isDigit = false

instance (l : List Char) : Decidable (headNotDigit l) := by
  unfold headNotDigit; infer_instance

theorem headNotDigit_cons {c : Char} (h : c.isDigit = false) (l : List Char) :
    headNotDigit (c :: l) := h

theorem takeWhile_digits_append :
    ∀ (dx : List Char), (∀ c ∈ dx, c.isDigit = true) →
      ∀ (x' : List Char), headNotDigit x' →
        (dx ++ x').takeWhile Char.isDigit = dx ∧
          (dx ++ x').dropWhile Char.isDigit = x' := by
  intro dx
  induction dx with
  | nil =>
    intro _ x' hx
    simp only [List.nil_append]
    cases x' with
    | nil => simp
    | cons c cs =>
      have hc : c.isDigit = false := hx
      simp [List.takeWhile_cons, List.dropWhile_cons, hc]
  | cons d t ih =>
    intro hall x' hx
    have hd : d.isDigit = true := hall d (List.mem_cons_self d t)
    have ht := ih (fun c hc => hall c (List.mem_cons_of_mem d hc)) x' hx
    simp [List.takeWhile_cons, List.dropWhile_cons, hd, ht.1, ht.2]

theorem versCmp_run {dx dy x' y' : List Char}
    (hdx : dx ≠ []) (hdy : dy ≠ [])
    (hax : ∀ c ∈ dx, c.isDigit = true) (hay : ∀ c ∈ dy, c.isDigit = true)
    (hx : headNotDigit x') (hy : headNotDigit y') :
    versCmp (dx ++ x') (dy ++ y') =
      if digitsToNat dx < digitsToNat dy then .lt
      else if digitsToNat dy < digitsToNat dx then .gt
      else versCmp x' y' := by
  obtain ⟨a, as, rfl⟩ := List.exists_cons_of_ne_nil hdx
  obtain ⟨b, bs, rfl⟩ := List.exists_cons_of_ne_nil hdy
  have ta := takeWhile_digits_append (a :: as) hax x' hx
  have tb := takeWhile_digits_append (b :: bs) hay y' hy
  have ha : a.isDigit = true := hax a (List.mem_cons_self a as)
  have hb : b.isDigit = true := hay b (List.mem_cons_self b bs)
  rw [List.cons_append, List.cons_append, versCmp_cons_cons]
  rw [show a :: (as ++ x') = (a :: as) ++ x' from rfl,
    show b :: (bs ++ y') = (b :: bs) ++ y' from rfl]
  rw [ta.1, tb.1, ta.2, tb.2]
  simp [ha, hb]

/-- Kind of a migration file, from its extension: `upgrade_M.NN.OO.sql`
is piped directly into mysql, `upgrade_M.NN.OO.php` is first run through
`generate_upgrade_sql_from_php.php` (`apply_incremental_db_changes`,
lines 418-430; the kind test is `fnmatch.fnmatch(file, "*.php")`). -/
inductive FileKind where
  | sql
  | php
deriving DecidableEq, Repr

/-- A migration file as discovered in the `Resources/sql`
directory of the release: an embedded version and a kind (extension). -/
structure MigrationFile where
  version : Version
  kind : FileKind
deriving DecidableEq, Repr

/-- The extension characters of a migration file name. -/
def extChars : FileKind → List Char
  | .sql => ".sql".data
  | .php => ".php".data

/-- The dotted-version portion of a migration file name, e.g. `6.11.0`. -/
def verChars (v : Version) : List Char :=
  natChars v.major ++ '.' :: natChars v.minor ++ '.' :: natChars v.patch

/-- The on-disk name of a migration file, e.g. `upgrade_6.11.0.sql`
(the fixed naming convention globbed by line 416 of the fabfile,
`upgrade_*.sql upgrade_*.php`; the common directory path is the same for
every file of one run and does not affect the sort). -/
def fileName (f : MigrationFile) : List Char :=
  "upgrade_".data ++ verChars f.version ++ extChars f.kind

/-- Tie-break between file kinds induced by version sort on the
extension: `.php` sorts before `.sql` (bytewise, `p < s`). -/
def kindCmp : FileKind → FileKind → Ordering
  | .sql, .sql => .eq
  | .php, .php => .eq
  | .php, .sql => .lt
  | .sql, .php => .gt

theorem versCmp_ext (j k : FileKind) :
    versCmp (extChars j) (extChars k) = kindCmp j k := by
  cases j <;> cases k <;> decide

theorem headNotDigit_ext (k : FileKind) : headNotDigit (extChars k) := by
  cases k <;> decide

theorem versCmp_vers (vf vg : Version) (t1 t2 : List Char)
    (h1 : headNotDigit t1) (h2 : headNotDigit t2) :
    versCmp (verChars vf ++ t1) (verChars vg ++ t2) =
      (specCompare vf vg).then (versCmp t1 t2) := by
  unfold verChars
  simp only [List.append_assoc, List.cons_append]
  rw [versCmp_run (natChars_ne_nil vf.major) (natChars_ne_nil vg.major)
    (fun c hc => natChars_all_digit hc) (fun c hc => natChars_all_digit hc)
    (headNotDigit_cons (by decide) _) (headNotDigit_cons (by decide) _)]
  rw [versCmp_cons_same (by decide)]
  rw [versCmp_run (natChars_ne_nil vf.minor) (natChars_ne_nil vg.minor)
    (fun c hc => natChars_all_digit hc) (fun c hc => natChars_all_digit hc)
    (headNotDigit_cons (by decide) _) (headNotDigit_cons (by decide) _)]
  rw [versCmp_cons_same (by decide)]
  rw [versCmp_run (natChars_ne_nil vf.patch) (natChars_ne_nil vg.patch)
    (fun c hc => natChars_all_digit hc) (fun c hc => natChars_all_digit hc) h1 h2]
  simp only [digitsToNat_natChars]
  unfold specCompare
  split_ifs <;> rfl

theorem versCmp_fileName (f g : MigrationFile) :
    versCmp (fileName f) (fileName g) =
      (specCompare f.version g.version).then (kindCmp f.kind g.kind) := by
  unfold fileName
  rw [List.append_assoc, List.append_assoc]
  rw [versCmp_strip (by decide)]
  rw [versCmp_vers f.version g.version (extChars f.kind) (extChars g.kind)
    (headNotDigit_ext f.kind) (headNotDigit_ext g.kind)]
  rw [versCmp_ext]

/-- The ordering relation under which migration file names are sorted:
`fileName f` is at-or-before `fileName g` in version-sort order. -/
def fileLe (f g : MigrationFile) : Prop :=
  versCmp (fileName f) (fileName g) ≠ .gt

instance : DecidableRel fileLe := fun f g => by
  unfold fileLe; infer_instance

/-- Embedding of the ordering step of `apply_incremental_db_changes`
(line 416): `ls -1 <dir>/upgrade_*.sql <dir>/upgrade_*.php | sort
--version-sort`.  GNU sort is a stable sort by the version-sort
comparator; every stable sort under the same total preorder produces the
same output list, so it is modelled by a stable sort (insertion sort)
under `fileLe`. -/
def orderFiles (files : List MigrationFile) : List MigrationFile :=
  List.insertionSort fileLe files

/-- Embedding of the filter condition of `apply_incremental_db_changes`
(lines 412 and 419-422): `old = convert_version_to_int(old)` once, then
for each file the embedded version is extracted, converted with
`convert_version_to_int`, and the file is applied only `if(version >
old)`. -/
def filterFiles (files : List MigrationFile) (old : Version) : List MigrationFile :=
  files.filter
    (fun f => decide (convert_version_to_int old < convert_version_to_int f.version))

theorem fileLe_iff (f g : MigrationFile) :
    fileLe f g ↔ (specCompare f.version g.version).then (kindCmp f.kind g.kind) ≠ .gt := by
  unfold fileLe
  rw [versCmp_fileName]

theorem fileLe_cases (f g : MigrationFile) :
    fileLe f g ↔ (specCompare f.version g.version = .lt ∨
      (f.version = g.version ∧ kindCmp f.kind g.kind ≠ .gt)) := by
  rw [fileLe_iff]
  cases hA : specCompare f.version g.version with
  | lt => simp [Ordering.then]
  | eq =>
    have hv := (specCompare_eq_iff f.version g.version).mp hA
    simp [Ordering.then, hv]
  | gt =>
    constructor
    · intro hcontra
      exact absurd rfl hcontra
    · rintro (h | ⟨hv, _⟩)
      · exact absurd h (by simp)
      · rw [hv, (specCompare_eq_iff _ _).mpr rfl] at hA
        exact absurd hA (by simp)

theorem specCompare_lt_iff (a b : Version) :
    specCompare a b = .lt ↔ (a.major < b.major ∨ (a.major = b.major ∧
      (a.minor < b.minor ∨ (a.minor = b.minor ∧ a.patch < b.patch)))) := by
  unfold specCompare
  split_ifs <;> simp_all <;> omega

theorem specCompare_gt_iff (a b : Version) :
    specCompare a b = .gt ↔ specCompare b a = .lt := by
  rw [specCompare_lt_iff]
  unfold specCompare
  split_ifs <;> simp_all <;> omega

instance : IsTotal MigrationFile fileLe := by
  constructor
  intro f g
  rw [fileLe_cases, fileLe_cases]
  by_cases hv : f.version = g.version
  · cases hf : f.kind <;> cases hg : g.kind <;> simp [kindCmp, hv]
  · cases hc : specCompare f.version g.version with
    | lt => exact Or.inl (Or.inl rfl)
    | eq => exact absurd ((specCompare_eq_iff _ _).mp hc) hv
    | gt => exact Or.inr (Or.inl ((specCompare_gt_iff _ _).mp hc))

instance : IsTrans MigrationFile fileLe := by
  constructor
  intro f g h hfg hgh
  rw [fileLe_cases] at hfg hgh ⊢
  rcases hfg with h1 | ⟨e1, k1⟩ <;> rcases hgh with h2 | ⟨e2, k2⟩
  · refine Or.inl ((specCompare_lt_iff _ _).mpr ?_)
    have a1 := (specCompare_lt_iff _ _).mp h1
    have a2 := (specCompare_lt_iff _ _).mp h2
    omega
  · exact Or.inl (e2 ▸ h1)
  · exact Or.inl (e1 ▸ h2)
  · refine Or.inr ⟨e1.trans e2, ?_⟩
    cases hf : f.kind <;> cases hg : g.kind <;> cases hh : h.kind <;>
      simp_all [kindCmp]

theorem orderFiles_perm (files : List MigrationFile) :
    (orderFiles files).Perm files :=
  List.perm_insertionSort fileLe files

theorem orderFiles_sorted (files : List MigrationFile) :
    List.Sorted fileLe (orderFiles files) :=
  List.sorted_insertionSort fileLe files

/-- Modelled from the spec: the non-strict per-component version order
("sorted by Version ascending"). -/
def specLe (a b : Version) : Prop := specCompare a b ≠ .gt

instance (a b : Version) : Decidable (specLe a b) := by
  unfold specLe; infer_instance

theorem fileLe_specLe {f g : MigrationFile} (h : fileLe f g) :
    specLe f.version g.version := by
  rw [fileLe_cases] at h
  unfold specLe
  rcases h with h | ⟨e, _⟩
  · simp [h]
  · rw [e, (specCompare_eq_iff _ _).mpr rfl]
    simp

theorem fileLe_specLt {f g : MigrationFile} (hne : f.version ≠ g.version)
    (h : fileLe f g) : specCompare f.version g.version = .lt := by
  rw [fileLe_cases] at h
  rcases h with h | ⟨e, _⟩
  · exact h
  · exact absurd e hne

theorem convert_lt_iff {a b : Version} (ha : Bounded a) (hb : Bounded b) :
    convert_version_to_int a < convert_version_to_int b ↔ specCompare a b = .lt := by
  rw [convert_eq_of_bounded ha, convert_eq_of_bounded hb, specCompare_lt_iff]
  obtain ⟨ha1, ha2⟩ := ha
  obtain ⟨hb1, hb2⟩ := hb
  omega

/-- A remote action issued by `apply_incremental_db_changes`:
piping an `upgrade_*.sql` file into mysql (line 430), piping the output
of `generate_upgrade_sql_from_php.php` on an `upgrade_*.php` file into
mysql (line 426), or a `set_redcap_config` write (lines 432-433, via the
`update redcap_config` statement of line 204). -/
inductive DbAction where
  | runSql (f : MigrationFile)
  | runPhpGen (f : MigrationFile)
  | setConfig (field value : String)
deriving DecidableEq, Repr

/-- How one migration file is applied (lines 423-430): the
`fnmatch.fnmatch(file, "*.php")` test selects the php-generation path,
otherwise the file is piped into mysql directly. -/
def applyFile (f : MigrationFile) : DbAction :=
  match f.kind with
  | .php => .runPhpGen f
  | .sql => .runSql f

/-- The dotted string rendering of a version, e.g. `"6.11.0"`. -/
def verString (v : Version) : String := String.mk (verChars v)

/-- Embedding of `fabfile.py::apply_incremental_db_changes`
(lines 405-433) as the list of remote actions it issues, in order:
the discovered migration files are sorted by `sort --version-sort`
(`orderFiles`), each file whose converted version exceeds the converted
`old` version is applied in that order, and afterwards the two
finalization writes `redcap_last_install_date` (the current date, line 432)
and `redcap_version` (the new version, line 433) are issued.  `files` is
the set of `upgrade_*.sql` / `upgrade_*.php` files found in the
`Resources/sql` directory of the new release; `today` is the current date
string. -/
def apply_incremental_db_changes (old new : Version) (files : List MigrationFile)
    (today : String) : List DbAction :=
  (filterFiles (orderFiles files) old).map applyFile
    ++ [.setConfig "redcap_last_install_date" today,
        .setConfig "redcap_version" (verString new)]

/-- Whether a single action succeeds, given which migration files apply
cleanly (`ok`): config writes always succeed. -/
def actionOk (ok : MigrationFile → Bool) : DbAction → Bool
  | .runSql f => ok f
  | .runPhpGen f => ok f
  | .setConfig _ _ => true

/-- Fail-fast execution: fabric aborts the whole task at the first
failing remote command (its default `warn_only=False` behaviour), so the
actions that actually execute are the longest prefix of successful
ones. -/
def executed (ok : MigrationFile → Bool) (tr : List DbAction) : List DbAction :=
  tr.takeWhile (actionOk ok)

/-- Effect of one action on the `redcap_config` store (a map from
field name to value); only `setConfig` changes it. -/
def applyAction (store : String → String) : DbAction → (String → String)
  | .setConfig field value => fun k => if k = field then value else store k
  | .runSql _ => store
  | .runPhpGen _ => store

/-- The `redcap_config` store after a list of actions runs. -/
def runConfig (store : String → String) (tr : List DbAction) : String → String :=
  tr.foldl applyAction store

/-- The steps of `fabfile.py::upgrade` (lines 292-311), in source
order.  `writeRemoteMyCnf` is the ConnectDB / credentials step;
`moveSoftwareToLive` activates the new code;
`applyIncrementalDbChanges` runs the migrations from the old to the new
version; `deleteRemoteMyCnf` is the credentials teardown. -/
inductive UpgradeStep where
  | makeUploadTarget
  | copyRunningCodeToBackupDir
  | uploadPackageAndExtract
  | writeRemoteMyCnf
  | offline
  | moveSoftwareToLive
  | applyIncrementalDbChanges
  | online
  | deleteRemoteMyCnf
deriving DecidableEq, Repr

/-- The fixed, straight-line body of `upgrade` (lines 301-311). -/
def upgradeSteps : List UpgradeStep :=
  [.makeUploadTarget, .copyRunningCodeToBackupDir, .uploadPackageAndExtract,
   .writeRemoteMyCnf, .offline, .moveSoftwareToLive, .applyIncrementalDbChanges,
   .online, .deleteRemoteMyCnf]

/-- Effect of one upgrade step on the online flag of the application
(`system_offline` config written by `change_online_status`,
lines 445-463): `offline()` clears it, `online()` sets it, every other
step leaves it unchanged. -/
def stepOnline (st : Bool) : UpgradeStep → Bool
  | .offline => false
  | .online => true
  | _ => st

/-- The online flag after the first `k` steps of `upgrade` have run,
starting from a running (online) application.  If the procedure fails
during step `k + 1`, this is the state the application is left in. -/
def onlineAfter (k : Nat) : Bool :=
  (upgradeSteps.take k).foldl stepOnline true

/-- The module-level mutable state behind the remote credentials file:
the counter `w_counter` (initialized to 0 at module load, line 596) and
whether `/home/<deploy_user>/.my.cnf` currently exists on the remote
host. -/
structure CredState where
  w_counter : Int
  my_cnf_exists : Bool
deriving DecidableEq, Repr

/-- Embedding of `fabfile.py::write_remote_my_cnf` (lines 71-83): write
the credentials file to the home directory of the deploy user (the `put` + `chmod 600`
always run, so the artifact exists afterwards), then increment
`w_counter`. -/
def write_remote_my_cnf (s : CredState) : CredState :=
  { w_counter := s.w_counter + 1, my_cnf_exists := true }

/-- Embedding of `fabfile.py::delete_remote_my_cnf` (lines 86-97):
decrement `w_counter`; if the decremented counter equals exactly zero,
remove the file (the `test -e` guard means the removal is a no-op when
the file is already absent, so existence simply becomes `false`). -/
def delete_remote_my_cnf (s : CredState) : CredState :=
  if s.w_counter - 1 = 0 then
    { w_counter := 0, my_cnf_exists := false }
  else
    { w_counter := s.w_counter - 1, my_cnf_exists := s.my_cnf_exists }

/-- Whether a call to `delete_remote_my_cnf` from state `s` actually
executes the `rm` of the credentials file (counter reaches exactly zero
and the `test -e` check finds the file). -/
def deletesArtifact (s : CredState) : Bool :=
  decide (s.w_counter - 1 = 0) && s.my_cnf_exists

/-- One credentials operation: `Acquire` is `write_remote_my_cnf`,
`Release` is `delete_remote_my_cnf`. -/
inductive CredOp where
  | acquire
  | release
deriving DecidableEq, Repr

/-- Apply one credentials operation. -/
def credStep (s : CredState) : CredOp → CredState
  | .acquire => write_remote_my_cnf s
  | .release => delete_remote_my_cnf s

/-- Run a sequence of credentials operations. -/
def runCreds (s : CredState) : List CredOp → CredState
  | [] => s
  | op :: rest => runCreds (credStep s op) rest

/-- How many times the `rm` of the credentials file executes while the
operation sequence runs from state `s`. -/
def countDeletes (s : CredState) : List CredOp → Nat
  | [] => 0
  | .acquire :: rest => countDeletes (credStep s .acquire) rest
  | .release :: rest =>
      (if deletesArtifact s then 1 else 0) + countDeletes (credStep s .release) rest

/-- State at module load: `w_counter = 0` (line 596) and no credentials
file on the remote host. -/
def initialCredState : CredState := { w_counter := 0, my_cnf_exists := false }

/-- `n` repetitions of a balanced Acquire-then-Release pair. -/
def pairSeq : Nat → List CredOp
  | 0 => []
  | n + 1 => .acquire :: .release :: pairSeq n

/-- Abort raised by the fabric `abort(...)` helper: the task stops immediately,
before any further remote command. -/
inductive DeployError where
  | unsafeOperation (msg : String)
deriving DecidableEq, Repr

/-- A remote action issued by `fabfile.py::deploy` (lines 572-591). -/
inductive DeployAction where
  | makeUploadTarget
  | uploadPackageAndExtract
  | updateRedcapConnection
  | writeRemoteMyCnf
  | dropCreateDatabase
  | createRedcapTables
  | moveSoftwareToLive
  | moveEdocsFolder
  | setRedcapBaseUrl
  | setHookFunctionsFile
  | configureRedcapCron
  | deleteRemoteMyCnf
deriving DecidableEq, Repr

/-- Embedding of `fabfile.py::create_database` (lines 137-162): the
guard `if not env.vagrant_instance: abort(...)` runs first, so against a
non-vagrant target the function fails fast with no DROP/CREATE issued;
otherwise it issues the single DROP-DATABASE / CREATE-DATABASE / GRANT
command. -/
def create_database (vagrant_instance : Bool) : Except DeployError (List DeployAction) :=
  if !vagrant_instance then
    .error (.unsafeOperation "create_database can only be run against the Vagrant instance")
  else
    .ok [.dropCreateDatabase]

/-- Embedding of `fabfile.py::deploy` (lines 572-591) as the list of
steps it performs, in source order; `create_database` is called inside
`if env.vagrant_instance:` (lines 582-583), so the DROP/CREATE step is
present exactly when the target is the vagrant instance. -/
def deployActions (vagrant_instance : Bool) : List DeployAction :=
  [.makeUploadTarget, .uploadPackageAndExtract, .updateRedcapConnection,
   .writeRemoteMyCnf]
  ++ (if vagrant_instance then [.dropCreateDatabase] else [])
  ++ [.createRedcapTables, .moveSoftwareToLive, .moveEdocsFolder, .setRedcapBaseUrl,
      .setHookFunctionsFile, .configureRedcapCron, .deleteRemoteMyCnf]

/-- The five alternatives of the regex in `is_affirmative`
(line 170). -/
def affirmativeWords : List String := ["force", "true", "t", "yes", "y"]

/-- ASCII lowercasing of a string (the regex alternatives are pure
ASCII, so the Python `re.IGNORECASE` matching of them coincides with
ASCII case folding on the inputs that can match). -/
def asciiLower (s : String) : String := String.mk (s.data.map Char.toLower)

/-- Embedding of `fabfile.py::is_affirmative` (lines 165-173):
`re.match("^(force|true|t|yes|y)$", response, re.IGNORECASE)`.
`re.match` anchors at the start, and `$` matches at the end of the
string OR just before a single trailing newline (Python re semantics),
so the match succeeds exactly on the five words, case-insensitively,
optionally followed by one final newline. -/
def is_affirmative (response : String) : Bool :=
  affirmativeWords.contains (asciiLower response)
    || (affirmativeWords.map (fun w => w ++ "\n")).contains (asciiLower response)

/-- A remote command issued by `delete_all_tables`. -/
inductive RemoteCmd where
  | writeRemoteMyCnf
  | dropAllTables
  | deleteRemoteMyCnf
deriving DecidableEq, Repr

/-- Embedding of `fabfile.py::delete_all_tables` (lines 176-188) as the
list of remote commands it issues: when the confirmation is affirmative
it writes the credentials file, pipes the generated DROP statements into
mysql, and deletes the credentials file; otherwise it only executes a
local `print` of a usage hint and issues no remote command at all. -/
def delete_all_tables (confirm : String) : List RemoteCmd :=
  if is_affirmative confirm then
    [.writeRemoteMyCnf, .dropAllTables, .deleteRemoteMyCnf]
  else
    []

theorem codeCompare_swap (a b : Version) : codeCompare b a = (codeCompare a b).swap := by
  unfold codeCompare
  rcases Nat.lt_trichotomy (convert_version_to_int a) (convert_version_to_int b) with h | h | h
  · rw [Nat.compare_eq_lt.mpr h]
    exact Nat.compare_eq_gt.mpr h
  · rw [h, Nat.compare_eq_eq.mpr rfl]
    rfl
  · rw [Nat.compare_eq_gt.mpr h]
    exact Nat.compare_eq_lt.mpr h

/-- Claim C7 counterexample: for minor component 100 the code does NOT
fail with any overflow error; `convert_version_to_int` happily returns
the integer 610000 for version 6.100.0 (Python `"%02d" % 100` produces
`"100"`, padding but never truncating), and that same integer is also
the encoding of version 61.0.0, so the returned sort key is not even
injective. -/
theorem convert_version_overflow_no_error :
    convert_version_to_int ⟨6, 100, 0⟩ = 610000 ∧
      convert_version_to_int ⟨61, 0, 0⟩ = 610000 := by
  decide

/-- Claim C7 (amended): for every version whose minor and patch are
below 100, `convert_version_to_int` returns
`major * 10000 + minor * 100 + patch`; for larger components it does
not fail but returns the decimal concatenation of the full component
renderings (see the counterexample for the resulting collision). -/
theorem convert_version_to_int_bounded_formula (v : Version)
    (h1 : v.minor < 100) (h2 : v.patch < 100) :
    convert_version_to_int v = v.major * 10000 + v.minor * 100 + v.patch :=
  convert_eq_of_bounded ⟨h1, h2⟩

/-- Claim C7 witness: the bounded formula evaluated at 6.11.5. -/
theorem convert_version_to_int_bounded_formula_witness :
    convert_version_to_int ⟨6, 11, 5⟩ = 61105 := by
  rw [convert_version_to_int_bounded_formula ⟨6, 11, 5⟩ (by decide) (by decide)]
  decide

/-- Claim C1 counterexample: a file whose embedded version (61.0.0) is
strictly greater than the installed version (6.100.0) per the
per-component comparison is nevertheless dropped by the filter, because
both versions convert to the same integer key 610000; so filtering does
not retain exactly the files strictly above the installed version per
`VersionCodec.Compare`. -/
theorem filterFiles_misses_greater_version_overflow :
    specCompare ⟨6, 100, 0⟩ ⟨61, 0, 0⟩ = .lt ∧
      filterFiles [⟨⟨61, 0, 0⟩, .sql⟩] ⟨6, 100, 0⟩ = [] := by
  decide

/-- Claim C1 (amended): when the installed version and every file
version have minor and patch below 100 (the range in which the integer
encoding is faithful), the filter retains exactly the files whose
embedded version strictly exceeds the installed version per the
per-component comparison; in particular, filtering any file set whose
versions are all at most `newVersion` against `installedVersion =
newVersion` yields the empty set, so a re-run against an unchanged
installed version applies zero files. -/
theorem filterFiles_spec_of_bounded (files : List MigrationFile) (inst : Version)
    (hinst : Bounded inst) (hf : ∀ f ∈ files, Bounded f.version) :
    filterFiles files inst
        = files.filter (fun f => decide (specCompare inst f.version = .lt)) ∧
      ((∀ f ∈ files, specLe f.version inst) → filterFiles files inst = []) := by
  constructor
  · unfold filterFiles
    refine List.filter_congr ?_
    intro f hfmem
    exact decide_eq_decide.mpr (convert_lt_iff hinst (hf f hfmem))
  · intro hle
    unfold filterFiles
    rw [List.filter_eq_nil_iff]
    intro f hfmem
    simp only [decide_eq_true_eq]
    rw [convert_lt_iff hinst (hf f hfmem)]
    intro hlt
    exact hle f hfmem ((specCompare_gt_iff f.version inst).mpr hlt)

/-- Claim C1 witness: filtering a file at 6.10.0 against installed
version 6.11.0 (all versions at most 6.11.0) yields the empty set. -/
theorem filterFiles_spec_of_bounded_witness :
    filterFiles [⟨⟨6, 10, 0⟩, .sql⟩] ⟨6, 11, 0⟩ = [] :=
  (filterFiles_spec_of_bounded [⟨⟨6, 10, 0⟩, .sql⟩] ⟨6, 11, 0⟩
    (by decide) (by decide)).2 (by decide)

/-- Claim C3 counterexample: the comparison the code performs is not
per-component numeric comparison of (major, minor, patch): version
6.100.0 compares GREATER than 7.0.0 under the integer keys (610000 vs
70000), while per-component comparison says it is smaller. -/
theorem codeCompare_not_componentwise :
    codeCompare ⟨6, 100, 0⟩ ⟨7, 0, 0⟩ = .gt ∧
      specCompare ⟨6, 100, 0⟩ ⟨7, 0, 0⟩ = .lt := by
  decide

/-- Claim C3 (amended): the comparison the code performs
(`codeCompare`, comparing `convert_version_to_int` keys) is a total
preorder: for all a, b exactly one of lt / eq / gt holds (captured by
the swap law plus the characterization of eq as equality of keys), and
lt is transitive.  It agrees with per-component numeric comparison
whenever minor and patch are below 100; in particular
Compare(6.2.10, 6.11.1) < 0 and Compare(6.2.1, 6.11.5) < 0, unlike
plain lexicographic string comparison, under which "6.11.1" sorts
before "6.2.10". -/
theorem codeCompare_total_order_spec :
    (∀ a b : Version, codeCompare b a = (codeCompare a b).swap) ∧
    (∀ a b : Version, codeCompare a b = .eq ↔
        convert_version_to_int a = convert_version_to_int b) ∧
    (∀ a b c : Version, codeCompare a b = .lt → codeCompare b c = .lt →
        codeCompare a c = .lt) ∧
    (∀ a b : Version, Bounded a → Bounded b → codeCompare a b = specCompare a b) ∧
    codeCompare ⟨6, 2, 10⟩ ⟨6, 11, 1⟩ = .lt ∧
    codeCompare ⟨6, 2, 1⟩ ⟨6, 11, 5⟩ = .lt ∧
    "6.11.1".data < "6.2.10".data := by
  refine ⟨codeCompare_swap, ?_, ?_, ?_, by decide, by decide, by decide⟩
  · intro a b
    unfold codeCompare
    exact Nat.compare_eq_eq
  · intro a b c h1 h2
    unfold codeCompare at h1 h2 ⊢
    rw [Nat.compare_eq_lt] at h1 h2 ⊢
    omega
  · intro a b ha hb
    exact codeCompare_eq_specCompare ha hb

/-- Claim C3 witness: the bounded-agreement part evaluated at 1.2.3 and
4.5.6. -/
theorem codeCompare_total_order_spec_witness :
    codeCompare ⟨1, 2, 3⟩ ⟨4, 5, 6⟩ = specCompare ⟨1, 2, 3⟩ ⟨4, 5, 6⟩ :=
  codeCompare_total_order_spec.2.2.2.1 ⟨1, 2, 3⟩ ⟨4, 5, 6⟩ (by decide) (by decide)

/-- Claim C2 counterexample: a release can ship both an `.sql` and a
`.php` migration for the same version; on such an input the sorted
output is NOT strictly increasing by version (the two equal versions
are adjacent), so "for every input list, the output is strictly
increasing by Version" fails. -/
theorem orderFiles_duplicate_version_not_strict :
    (orderFiles [⟨⟨6, 4, 0⟩, .sql⟩, ⟨⟨6, 4, 0⟩, .php⟩]).map (fun f => f.version)
        = [⟨6, 4, 0⟩, ⟨6, 4, 0⟩] ∧
      ¬ List.Pairwise (fun a b => specCompare a b = .lt)
        ((orderFiles [⟨⟨6, 4, 0⟩, .sql⟩, ⟨⟨6, 4, 0⟩, .php⟩]).map
          (fun f => f.version)) := by
  decide

/-- Claim C2 (amended): the ordering step sorts by version using
numeric, version-aware comparison: the output is a permutation of the
input, non-decreasing by version per the per-component order, and
strictly increasing whenever the input versions are pairwise distinct;
versions [6.9.0, 6.10.0, 6.2.0] come out as [6.2.0, 6.9.0, 6.10.0],
and the component 9 sorts before 10 (file name
`upgrade_6.9.0.sql` precedes `upgrade_6.10.0.sql` in version-sort
order, unlike plain lexicographic filename order). -/
theorem orderFiles_version_ascending :
    (∀ files : List MigrationFile, (orderFiles files).Perm files) ∧
    (∀ files : List MigrationFile,
      List.Pairwise (fun a b => specLe a b)
        ((orderFiles files).map (fun f => f.version))) ∧
    (∀ files : List MigrationFile,
      List.Pairwise (fun f g : MigrationFile => f.version ≠ g.version) files →
      List.Pairwise (fun a b => specCompare a b = .lt)
        ((orderFiles files).map (fun f => f.version))) ∧
    orderFiles [⟨⟨6, 9, 0⟩, .sql⟩, ⟨⟨6, 10, 0⟩, .sql⟩, ⟨⟨6, 2, 0⟩, .sql⟩]
        = [⟨⟨6, 2, 0⟩, .sql⟩, ⟨⟨6, 9, 0⟩, .sql⟩, ⟨⟨6, 10, 0⟩, .sql⟩] ∧
    versCmp "upgrade_6.9.0.sql".data "upgrade_6.10.0.sql".data = .lt := by
  refine ⟨orderFiles_perm, ?_, ?_, by decide, by decide⟩
  · intro files
    rw [List.pairwise_map]
    exact List.Pairwise.imp (fun h => fileLe_specLe h) (orderFiles_sorted files)
  · intro files hdist
    rw [List.pairwise_map]
    have hsort : List.Pairwise fileLe (orderFiles files) := orderFiles_sorted files
    have hne : List.Pairwise (fun f g : MigrationFile => f.version ≠ g.version)
        (orderFiles files) := by
      refine ((orderFiles_perm files).pairwise_iff ?_).mpr hdist
      intro x y h
      exact fun e => h e.symm
    exact (hsort.and hne).imp (fun h => fileLe_specLt h.2 h.1)

/-- Claim C2 witness: the strict-increase part evaluated on two files
with distinct versions given in descending order. -/
theorem orderFiles_version_ascending_witness :
    List.Pairwise (fun a b => specCompare a b = .lt)
      ((orderFiles [⟨⟨6, 9, 0⟩, .sql⟩, ⟨⟨6, 2, 0⟩, .sql⟩]).map (fun f => f.version)) :=
  orderFiles_version_ascending.2.2.1 [⟨⟨6, 9, 0⟩, .sql⟩, ⟨⟨6, 2, 0⟩, .sql⟩] (by decide)

/-- Claim C4 (confirmed): the `upgrade` task performs its steps in the
fixed order make-upload-target, snapshot running code, upload and
extract, connect DB (write credentials), offline, activate new code,
run migrations, online, teardown (delete credentials).  The application
goes offline before the new code is activated and before any migration
runs, and comes back online only after the migrations complete; a
failure while steps 6-8 are in progress (i.e. after 5, 6 or 7 steps
have completed) leaves the application offline. -/
theorem upgrade_step_order_spec :
    upgradeSteps = [.makeUploadTarget, .copyRunningCodeToBackupDir,
      .uploadPackageAndExtract, .writeRemoteMyCnf, .offline, .moveSoftwareToLive,
      .applyIncrementalDbChanges, .online, .deleteRemoteMyCnf] ∧
    upgradeSteps.indexOf .writeRemoteMyCnf < upgradeSteps.indexOf .offline ∧
    upgradeSteps.indexOf .offline < upgradeSteps.indexOf .moveSoftwareToLive ∧
    upgradeSteps.indexOf .moveSoftwareToLive
      < upgradeSteps.indexOf .applyIncrementalDbChanges ∧
    upgradeSteps.indexOf .applyIncrementalDbChanges < upgradeSteps.indexOf .online ∧
    upgradeSteps.indexOf .online < upgradeSteps.indexOf .deleteRemoteMyCnf ∧
    (onlineAfter 5 = false ∧ onlineAfter 6 = false ∧ onlineAfter 7 = false) ∧
    onlineAfter 4 = true ∧ onlineAfter 9 = true := by
  decide

theorem cred_invariant :
    ∀ (ops : List CredOp) (s : CredState),
      (0 < s.w_counter → s.my_cnf_exists = true) →
      (0 < (runCreds s ops).w_counter → (runCreds s ops).my_cnf_exists = true) := by
  intro ops
  induction ops with
  | nil => intro s h; exact h
  | cons op rest ih =>
    intro s h
    cases op with
    | acquire => exact ih (credStep s .acquire) (fun _ => rfl)
    | release =>
      refine ih (credStep s .release) ?_
      intro hpos
      show (delete_remote_my_cnf s).my_cnf_exists = true
      have hpos2 : 0 < (delete_remote_my_cnf s).w_counter := hpos
      unfold delete_remote_my_cnf at hpos2 ⊢
      by_cases hc : s.w_counter - 1 = 0
      · simp [hc] at hpos2
      · simp only [hc, if_false] at hpos2 ⊢
        exact h (by omega)

/-- Claim C5 (confirmed): the remote credentials artifact is
reference-counted: every `write_remote_my_cnf` increments `w_counter`
and materializes the artifact, every `delete_remote_my_cnf` decrements
the counter, the `rm` of the artifact runs exactly when the decremented
counter reaches zero (with the file present); from the initial state,
the sequences Acquire-Acquire-Release-Release and
Acquire-Release-Acquire-Release leave the artifact absent (the latter
after each pair), and the artifact exists whenever the counter is
positive (any unmatched Acquire). -/
theorem cred_refcount_spec :
    (∀ s : CredState, write_remote_my_cnf s
        = { w_counter := s.w_counter + 1, my_cnf_exists := true }) ∧
    (∀ s : CredState, (delete_remote_my_cnf s).w_counter = s.w_counter - 1) ∧
    (∀ s : CredState, deletesArtifact s = true ↔
        (s.w_counter = 1 ∧ s.my_cnf_exists = true)) ∧
    (runCreds initialCredState
      [.acquire, .acquire, .release, .release]).my_cnf_exists = false ∧
    (runCreds initialCredState [.acquire, .release]).my_cnf_exists = false ∧
    (runCreds initialCredState
      [.acquire, .release, .acquire, .release]).my_cnf_exists = false ∧
    (∀ ops : List CredOp, 0 < (runCreds initialCredState ops).w_counter →
      (runCreds initialCredState ops).my_cnf_exists = true) := by
  refine ⟨fun s => rfl, ?_, ?_, by decide, by decide, by decide, ?_⟩
  · intro s
    unfold delete_remote_my_cnf
    by_cases hc : s.w_counter - 1 = 0 <;> simp [hc]
  · intro s
    unfold deletesArtifact
    simp only [Bool.and_eq_true, decide_eq_true_eq]
    rw [show (s.w_counter - 1 = 0) ↔ (s.w_counter = 1) from by omega]
  · exact fun ops => cred_invariant ops initialCredState (fun h => absurd h (by decide))

/-- Claim C5 witness: after a single unmatched Acquire from the initial
state, the artifact exists. -/
theorem cred_refcount_spec_witness :
    (runCreds initialCredState [CredOp.acquire]).my_cnf_exists = true :=
  cred_refcount_spec.2.2.2.2.2.2 [CredOp.acquire] (by decide)

theorem runCreds_pairSeq_neg :
    ∀ (n : Nat) (e : Bool),
      runCreds ⟨-1, e⟩ (pairSeq n) = ⟨-1, if n = 0 then e else true⟩ := by
  intro n
  induction n with
  | zero => intro e; rfl
  | succ m ih =>
    intro e
    show runCreds (credStep (credStep ⟨-1, e⟩ .acquire) .release) (pairSeq m) = _
    have h1 : credStep (credStep (⟨-1, e⟩ : CredState) .acquire) .release
        = (⟨-1, true⟩ : CredState) := rfl
    rw [h1, ih true]
    simp

theorem countDeletes_pairSeq_neg :
    ∀ (n : Nat) (e : Bool), countDeletes ⟨-1, e⟩ (pairSeq n) = 0 := by
  intro n
  induction n with
  | zero => intro e; rfl
  | succ m ih =>
    intro e
    show (if deletesArtifact (credStep ⟨-1, e⟩ .acquire) then 1 else 0)
        + countDeletes (credStep (credStep ⟨-1, e⟩ .acquire) .release) (pairSeq m) = 0
    have h1 : deletesArtifact (credStep (⟨-1, e⟩ : CredState) .acquire) = false := rfl
    have h2 : credStep (credStep (⟨-1, e⟩ : CredState) .acquire) .release
        = (⟨-1, true⟩ : CredState) := rfl
    rw [h1, h2, ih true]
    simp

/-- Claim C9 (confirmed): calling `delete_remote_my_cnf` at counter 0
drives the counter to -1 without deleting anything; from counter -1,
every subsequent balanced Acquire-then-Release pair returns the counter
to -1, and across any number of such pairs the `rm` of the credentials
file never executes again (the decrement always lands on -1, never on
0), so the artifact written by the acquires is left behind. -/
theorem release_at_zero_spec :
    (∀ e : Bool, delete_remote_my_cnf ⟨0, e⟩ = ⟨-1, e⟩ ∧
      deletesArtifact ⟨0, e⟩ = false) ∧
    (∀ (n : Nat) (e : Bool), (runCreds ⟨-1, e⟩ (pairSeq n)).w_counter = -1 ∧
      countDeletes ⟨-1, e⟩ (pairSeq n) = 0) ∧
    (∀ n : Nat, runCreds ⟨-1, true⟩ (pairSeq n) = ⟨-1, true⟩) := by
  refine ⟨?_, ?_, ?_⟩
  · intro e
    cases e <;> exact ⟨by decide, by decide⟩
  · intro n e
    refine ⟨?_, countDeletes_pairSeq_neg n e⟩
    rw [runCreds_pairSeq_neg n e]
  · intro n
    rw [runCreds_pairSeq_neg n true]
    simp

/-- Claim C6 (confirmed): `create_database` against any target not
flagged as the vagrant instance fails fast with the
unsafe-operation abort and no DROP/CREATE is issued (the error carries
no actions); against the vagrant instance it issues exactly the
DROP/CREATE command; and `deploy` contains the DROP/CREATE step if and
only if the target is flagged as a vagrant instance. -/
theorem create_database_vagrant_only :
    create_database false = .error (.unsafeOperation
      "create_database can only be run against the Vagrant instance") ∧
    create_database true = .ok [.dropCreateDatabase] ∧
    (∀ v : Bool, DeployAction.dropCreateDatabase ∈ deployActions v ↔ v = true) := by
  refine ⟨rfl, rfl, ?_⟩
  intro v
  cases v <;> decide

/-- Whether an action is one of the `set_redcap_config` writes (as
opposed to applying a migration file). -/
def isConfigWrite : DbAction → Bool
  | .setConfig _ _ => true
  | .runSql _ => false
  | .runPhpGen _ => false

theorem applyFile_not_config (f : MigrationFile) :
    isConfigWrite (applyFile f) = false := by
  cases hk : f.kind <;> simp [applyFile, hk, isConfigWrite]

theorem actionOk_applyFile (ok : MigrationFile → Bool) (f : MigrationFile) :
    actionOk ok (applyFile f) = ok f := by
  cases hk : f.kind <;> simp [applyFile, hk, actionOk]

theorem setConfig_not_mem_map (field value : String) (fs : List MigrationFile) :
    DbAction.setConfig field value ∉ fs.map applyFile := by
  intro hmem
  rw [List.mem_map] at hmem
  obtain ⟨f, _, hf⟩ := hmem
  cases hk : f.kind <;> simp [applyFile, hk] at hf

theorem takeWhile_append_fail {α : Type} (p : α → Bool) :
    ∀ (xs ys : List α), (∃ x ∈ xs, p x = false) →
      (xs ++ ys).takeWhile p = xs.takeWhile p := by
  intro xs
  induction xs with
  | nil =>
    intro ys h
    rcases h with ⟨x, hx, _⟩
    exact absurd hx (List.not_mem_nil x)
  | cons a t ih =>
    intro ys h
    by_cases hp : p a = true
    · simp only [List.cons_append, List.takeWhile_cons, hp, if_true]
      rw [ih ys ?_]
      rcases h with ⟨x, hx, hfx⟩
      rcases List.mem_cons.mp hx with rfl | hxt
      · rw [hp] at hfx
        cases hfx
      · exact ⟨x, hxt, hfx⟩
    · have hp2 : p a = false := by
        revert hp
        cases p a <;> simp
      simp [List.takeWhile_cons, hp2]

theorem executed_all_ok {ok : MigrationFile → Bool} {tr : List DbAction}
    (h : ∀ a ∈ tr, actionOk ok a = true) : executed ok tr = tr :=
  List.takeWhile_eq_self_iff.mpr h

theorem trace_all_ok {old new : Version} {files : List MigrationFile}
    {today : String} {ok : MigrationFile → Bool}
    (hall : ∀ f ∈ filterFiles (orderFiles files) old, ok f = true) :
    ∀ a ∈ apply_incremental_db_changes old new files today, actionOk ok a = true := by
  intro a ha
  unfold apply_incremental_db_changes at ha
  rcases List.mem_append.mp ha with h1 | h2
  · rw [List.mem_map] at h1
    obtain ⟨f, hf, rfl⟩ := h1
    rw [actionOk_applyFile]
    exact hall f hf
  · rcases List.mem_cons.mp h2 with rfl | h3
    · rfl
    · rcases List.mem_cons.mp h3 with rfl | h4
      · rfl
      · exact absurd h4 (List.not_mem_nil a)

/-- Claim C8 (confirmed): `apply_incremental_db_changes` finalizes only
after every filtered migration file has applied successfully — the two
`set_redcap_config` writes come after all file applications, and under
fail-fast execution the `redcap_version` write executes if and only if
every filtered file succeeds; finalization writes exactly
`redcap_last_install_date` (the current date) and `redcap_version` (the
new version); and in the scenario upgrading from installed 6.9.0 with a
6.11.0 package shipping migrations 6.9.0, 6.10.0, 6.11.0, exactly the
files in (6.9.0, 6.11.0] are applied, in ascending order, and
`redcap_version` ends equal to "6.11.0". -/
theorem apply_incremental_finalize_spec :
    (∀ (old new : Version) (files : List MigrationFile) (today : String),
      (apply_incremental_db_changes old new files today).filter isConfigWrite
        = [.setConfig "redcap_last_install_date" today,
           .setConfig "redcap_version" (verString new)]) ∧
    (∀ (old new : Version) (files : List MigrationFile) (today : String)
        (ok : MigrationFile → Bool),
      DbAction.setConfig "redcap_version" (verString new)
          ∈ executed ok (apply_incremental_db_changes old new files today) ↔
        ∀ f ∈ filterFiles (orderFiles files) old, ok f = true) ∧
    (∀ (old new : Version) (files : List MigrationFile) (today : String)
        (ok : MigrationFile → Bool) (store : String → String),
      (∀ f ∈ filterFiles (orderFiles files) old, ok f = true) →
      runConfig store (executed ok (apply_incremental_db_changes old new files today))
          "redcap_version" = verString new ∧
      runConfig store (executed ok (apply_incremental_db_changes old new files today))
          "redcap_last_install_date" = today) ∧
    ((filterFiles (orderFiles
        [⟨⟨6, 10, 0⟩, .sql⟩, ⟨⟨6, 11, 0⟩, .sql⟩, ⟨⟨6, 9, 0⟩, .sql⟩]) ⟨6, 9, 0⟩).map
        (fun f => f.version) = [⟨6, 10, 0⟩, ⟨6, 11, 0⟩] ∧
      runConfig (fun _ => "") (executed (fun _ => true)
          (apply_incremental_db_changes ⟨6, 9, 0⟩ ⟨6, 11, 0⟩
            [⟨⟨6, 10, 0⟩, .sql⟩, ⟨⟨6, 11, 0⟩, .sql⟩, ⟨⟨6, 9, 0⟩, .sql⟩] "2017-01-26"))
          "redcap_version" = "6.11.0") := by
  refine ⟨?_, ?_, ?_, by decide, by decide⟩
  · intro old new files today
    unfold apply_incremental_db_changes
    rw [List.filter_append]
    have hnil : ((filterFiles (orderFiles files) old).map applyFile).filter
        isConfigWrite = [] := by
      rw [List.filter_eq_nil_iff]
      intro a ha
      rw [List.mem_map] at ha
      obtain ⟨f, _, rfl⟩ := ha
      simp [applyFile_not_config]
    rw [hnil]
    rfl
  · intro old new files today ok
    constructor
    · intro hmem
      by_contra hnall
      push_neg at hnall
      obtain ⟨f, hf, hok⟩ := hnall
      have hfail : ∃ a ∈ (filterFiles (orderFiles files) old).map applyFile,
          actionOk ok a = false :=
        ⟨applyFile f, List.mem_map_of_mem applyFile hf, by
          rw [actionOk_applyFile]
          exact Bool.not_eq_true (ok f) ▸ Bool.eq_false_iff.mpr hok⟩
      unfold executed apply_incremental_db_changes at hmem
      rw [takeWhile_append_fail (actionOk ok) _ _ hfail] at hmem
      have hsub := (List.takeWhile_sublist (actionOk ok)).subset hmem
      exact setConfig_not_mem_map _ _ _ hsub
    · intro hall
      rw [executed_all_ok (trace_all_ok hall)]
      unfold apply_incremental_db_changes
      exact List.mem_append_right _ (by simp)
  · intro old new files today ok store hall
    rw [executed_all_ok (trace_all_ok hall)]
    unfold apply_incremental_db_changes runConfig
    rw [List.foldl_append]
    simp only [List.foldl_cons, List.foldl_nil, applyAction]
    constructor <;> simp

/-- Claim C8 witness: the final-configuration part evaluated at a
concrete upgrade where the single filtered file succeeds. -/
theorem apply_incremental_finalize_spec_witness :
    runConfig (fun _ => "") (executed (fun _ => true)
        (apply_incremental_db_changes ⟨6, 9, 0⟩ ⟨6, 10, 0⟩
          [⟨⟨6, 10, 0⟩, .sql⟩] "2017-01-26")) "redcap_version" = "6.10.0" :=
  (apply_incremental_finalize_spec.2.2.1 ⟨6, 9, 0⟩ ⟨6, 10, 0⟩
    [⟨⟨6, 10, 0⟩, .sql⟩] "2017-01-26" (fun _ => true) (fun _ => "")
    (by decide)).1.trans (by decide)

theorem contains_iff_mem {α : Type} [BEq α] [LawfulBEq α] {l : List α} {a : α} :
    l.contains a = true ↔ a ∈ l :=
  List.elem_iff

/-- Claim C10 counterexample: the confirmation string consisting of `y`
followed by a newline is accepted by `is_affirmative` (the Python `$`
anchor matches just before a single trailing newline), so
`delete_all_tables` issues its table-dropping commands for it; yet that
string is not one of force, true, t, yes, y, even case-insensitively. -/
theorem delete_all_tables_trailing_newline :
    delete_all_tables "y\n"
        = [.writeRemoteMyCnf, .dropAllTables, .deleteRemoteMyCnf] ∧
      asciiLower "y\n" ∉ affirmativeWords := by
  decide

/-- Claim C10 (amended): `delete_all_tables` issues its table-dropping
commands if and only if `is_affirmative` accepts the confirmation,
which holds exactly when the ASCII-lowercased string is one of force,
true, t, yes, y, or one of those followed by a single trailing newline
(Python `$` matches before a final newline); for every other
confirmation string, including the empty default, it executes no remote
command. -/
theorem delete_all_tables_spec :
    (∀ confirm : String, delete_all_tables confirm ≠ []
        ↔ is_affirmative confirm = true) ∧
    (∀ confirm : String, is_affirmative confirm = true ↔
      (asciiLower confirm ∈ affirmativeWords ∨
        ∃ w ∈ affirmativeWords, asciiLower confirm = w ++ "\n")) ∧
    (∀ confirm : String, is_affirmative confirm = false →
      delete_all_tables confirm = []) ∧
    delete_all_tables "" = [] ∧
    delete_all_tables "no" = [] ∧
    delete_all_tables "YES"
      = [.writeRemoteMyCnf, .dropAllTables, .deleteRemoteMyCnf] := by
  refine ⟨?_, ?_, ?_, by decide, by decide, by decide⟩
  · intro confirm
    unfold delete_all_tables
    by_cases h : is_affirmative confirm = true
    · simp [h]
    · rw [Bool.not_eq_true] at h
      simp [h]
  · intro confirm
    unfold is_affirmative
    rw [Bool.or_eq_true, contains_iff_mem, contains_iff_mem, List.mem_map]
    constructor
    · rintro (h | ⟨w, hw, he⟩)
      · exact Or.inl h
      · exact Or.inr ⟨w, hw, he.symm⟩
    · rintro (h | ⟨w, hw, he⟩)
      · exact Or.inl h
      · exact Or.inr ⟨w, hw, he.symm⟩
  · intro confirm h
    unfold delete_all_tables
    simp [h]

/-- Claim C10 witness: a non-affirmative confirmation issues no remote
command. -/
theorem delete_all_tables_spec_witness :
    delete_all_tables "nope" = [] :=
  delete_all_tables_spec.2.2.1 "nope" (by decide)
